import Mathlib

/-!
Verification development for the libmv video-stabilization slice:
the chain composer and stabilizer of src/tools/stabilize.cc, the
HomogeneousToEuclidean conversion of src/libmv_opencv/src/projection.cpp,
and the point-normalization and fundamental-matrix estimation behavior
pinned down by src/libmv/multiview/fundamental_test.cc.
Machine integers are modelled as Nat with explicit reduction modulo 2^64
where size_t wraparound matters; real/double arithmetic is modelled over
the rationals or the reals as appropriate.
-/

namespace Libmv

/-- A 3x3 matrix over the rationals, standing for cv::Matx33d. -/
abbrev Mat3Q := Matrix (Fin 3) (Fin 3) ℚ

/-- Computable 3x3 matrix inverse: adjugate divided by the determinant,
mirroring cv::Matx33d::inv(); on a singular matrix the determinant inverse
is 0 and the result is the zero matrix (junk value, as the source has
undefined output there). -/
def inv3 (A : Mat3Q) : Mat3Q := (A.det)⁻¹ • A.adjugate

/-- The inv3 model agrees with the Mathlib nonsingular inverse. -/
theorem inv3_eq_inv (A : Mat3Q) : inv3 A = A⁻¹ := by
  rw [inv3, Matrix.inv_def, Ring.inverse_eq_inv']

/-- Cumulative warp of frame i in Stabilize (stabilize.cc:282-293):
H starts as the identity and at every frame i > 0 is updated to
Hs[i-1].inv() * H before warping. -/
def stabCumulative (Ts : List Mat3Q) : Nat → Mat3Q
  | 0 => 1
  | Nat.succ i => inv3 (Ts.getD i 1) * stabCumulative Ts i

/-- Consecutive image pairs of the ordered image sequence, as iterated by
the prev_image_iter/image_iter loop of the ComputeRelative* functions. -/
def consecutivePairs {α : Type} (l : List α) : List (α × α) :=
  l.zip l.tail

/-- Generic body shared by the four ComputeRelative*Matrices functions of
stabilize.cc: walk the consecutive image pairs in order; when the pair has
at least minN correspondences, estimate a transform and append it,
otherwise append nothing and continue with the next pair. -/
def computeRelativeMatrices {α β : Type} (minN : Nat)
    (count : α → α → Nat) (est : α → α → β) (images : List α) : List β :=
  (consecutivePairs images).filterMap
    (fun p => if minN ≤ count p.1 p.2 then some (est p.1 p.2) else none)

/-- ComputeRelativeEuclideanMatrices (stabilize.cc:123-146): the guard at
line 136 is xs2[0].cols() >= 2. -/
def ComputeRelativeEuclideanMatrices {α β : Type}
    (count : α → α → Nat) (est : α → α → β) (images : List α) : List β :=
  computeRelativeMatrices 2 count est images

/-- ComputeRelativeSimilarityMatrices (stabilize.cc:161-184): the guard at
line 174 is xs2[0].cols() >= 2. -/
def ComputeRelativeSimilarityMatrices {α β : Type}
    (count : α → α → Nat) (est : α → α → β) (images : List α) : List β :=
  computeRelativeMatrices 2 count est images

/-- ComputeRelativeAffineMatrices (stabilize.cc:199-222): the guard at
line 212 is xs2[0].cols() >= 3. -/
def ComputeRelativeAffineMatrices {α β : Type}
    (count : α → α → Nat) (est : α → α → β) (images : List α) : List β :=
  computeRelativeMatrices 3 count est images

/-- ComputeRelativeHomographyMatrices (stabilize.cc:237-260): the guard at
line 250 is xs2[0].cols() >= 4. -/
def ComputeRelativeHomographyMatrices {α β : Type}
    (count : α → α → Nat) (est : α → α → β) (images : List α) : List β :=
  computeRelativeMatrices 4 count est images

/-- Helper: a filterMap whose function is an if-some-else-none is the map
over the filtered list. -/
theorem filterMap_ite_eq_map_filter {α β : Type} (c : α → Prop) [DecidablePred c]
    (f : α → β) (l : List α) :
    l.filterMap (fun a => if c a then some (f a) else none)
      = (l.filter (fun a => decide (c a))).map f := by
  induction l with
  | nil => rfl
  | cons x xs ih =>
      by_cases hx : c x <;>
        simp [List.filterMap_cons, List.filter_cons, hx, ih]

/-- The cumulative warp equals the left-to-right fold of the inverses of
the first i pairwise transforms. -/
theorem stabCumulative_eq_foldl (Ts : List Mat3Q) :
    ∀ i, i ≤ Ts.length →
      stabCumulative Ts i = (Ts.take i).foldl (fun H T => inv3 T * H) 1 := by
  intro i
  induction i with
  | zero => intro _; rfl
  | succ j ih =>
      intro h
      have hj : j < Ts.length := Nat.lt_of_succ_le h
      have hj' : Ts[j]? = some Ts[j] := List.getElem?_eq_getElem hj
      rw [stabCumulative, List.take_succ, hj', List.foldl_append,
        ih (Nat.le_of_lt hj), List.getD_eq_getElem Ts 1 hj]
      rfl

/-- C3: the cumulative transform applied to frame i by the stabilizer
satisfies cumulative[0] = identity and
cumulative[i] = inverse(T[i-1]) * cumulative[i-1] for every 1 <= i <= k;
equivalently frame i is warped by the left-to-right fold of the inverses
of the first i pairwise transforms (stabilize.cc:282-293). -/
theorem stabilize_cumulative_recurrence (Ts : List Mat3Q) :
    stabCumulative Ts 0 = 1 ∧
    (∀ i, 1 ≤ i → i ≤ Ts.length →
      stabCumulative Ts i = inv3 (Ts.getD (i - 1) 1) * stabCumulative Ts (i - 1)) ∧
    (∀ i, i ≤ Ts.length →
      stabCumulative Ts i = (Ts.take i).foldl (fun H T => inv3 T * H) 1) := by
  refine ⟨rfl, ?_, stabCumulative_eq_foldl Ts⟩
  intro i h1 _
  cases i with
  | zero => exact absurd h1 (by omega)
  | succ j => rfl

/-- Witness for the C3 recurrence at the one-element chain containing the
identity matrix. -/
theorem stabilize_cumulative_recurrence_witness :
    (1 : Nat) ≤ 1 ∧ (1 : Nat) ≤ ([(1 : Mat3Q)]).length ∧
    stabCumulative [(1 : Mat3Q)] 1
      = inv3 (([(1 : Mat3Q)]).getD 0 1) * stabCumulative [(1 : Mat3Q)] 0 :=
  ⟨le_refl 1, by simp,
    (stabilize_cumulative_recurrence [(1 : Mat3Q)]).2.1 1 (le_refl 1) (by simp)⟩

/-- C7: for an invertible transform T, the two-element chain T, T yields
cumulative[2] = inverse(T) * inverse(T), which equals the inverse of
T * T (stabilize.cc:291-293). -/
theorem chain_two_identical_transforms (T : Mat3Q) (h : IsUnit T.det) :
    stabCumulative [T, T] 2 = inv3 T * inv3 T ∧
    inv3 T * inv3 T = inv3 (T * T) := by
  constructor
  · show inv3 ([T, T].getD 1 1) * (inv3 ([T, T].getD 0 1) * 1) = inv3 T * inv3 T
    simp [List.getD]
  · rw [inv3_eq_inv, inv3_eq_inv, Matrix.mul_inv_rev]

/-- Witness for C7 at the invertible diagonal matrix diag(2,1,1). -/
theorem chain_two_identical_transforms_witness :
    IsUnit (Matrix.det (!![2, 0, 0; 0, 1, 0; 0, 0, 1] : Mat3Q)) ∧
    (stabCumulative [(!![2, 0, 0; 0, 1, 0; 0, 0, 1] : Mat3Q),
        !![2, 0, 0; 0, 1, 0; 0, 0, 1]] 2
      = inv3 !![2, 0, 0; 0, 1, 0; 0, 0, 1] * inv3 !![2, 0, 0; 0, 1, 0; 0, 0, 1] ∧
     inv3 !![2, 0, 0; 0, 1, 0; 0, 0, 1] * inv3 !![2, 0, 0; 0, 1, 0; 0, 0, 1]
      = inv3 (!![2, 0, 0; 0, 1, 0; 0, 0, 1] * !![2, 0, 0; 0, 1, 0; 0, 0, 1])) :=
  have hu : IsUnit (Matrix.det (!![2, 0, 0; 0, 1, 0; 0, 0, 1] : Mat3Q)) :=
    isUnit_iff_ne_zero.mpr (by norm_num [Matrix.det_fin_three])
  ⟨hu, chain_two_identical_transforms !![2, 0, 0; 0, 1, 0; 0, 0, 1] hu⟩

/-- C5: a consecutive pair with fewer correspondences than the minimal
cardinality is skipped, appending no transform, and the run continues, so
the output chain length equals the number of consecutive pairs with at
least the minimal correspondence count; instantiated at the Euclidean
guard of stabilize.cc:136 and the homography guard of stabilize.cc:250. -/
theorem chain_skips_short_pairs {α β : Type}
    (count : α → α → Nat) (est : α → α → β) (images : List α) :
    (∀ minN, (computeRelativeMatrices minN count est images).length
      = ((consecutivePairs images).filter
          (fun p => decide (minN ≤ count p.1 p.2))).length) ∧
    (ComputeRelativeEuclideanMatrices count est images).length
      = ((consecutivePairs images).filter
          (fun p => decide (2 ≤ count p.1 p.2))).length ∧
    (ComputeRelativeHomographyMatrices count est images).length
      = ((consecutivePairs images).filter
          (fun p => decide (4 ≤ count p.1 p.2))).length := by
  have hgen : ∀ minN, (computeRelativeMatrices minN count est images).length
      = ((consecutivePairs images).filter
          (fun p => decide (minN ≤ count p.1 p.2))).length := by
    intro minN
    have hmf := filterMap_ite_eq_map_filter
      (c := fun p : α × α => minN ≤ count p.1 p.2)
      (f := fun p : α × α => est p.1 p.2) (l := consecutivePairs images)
    rw [computeRelativeMatrices, hmf, List.length_map]
  exact ⟨hgen, hgen 2, hgen 4⟩

/-- C6: the minimal-sample cardinalities guarded before invoking the
robust estimators are 2 (Euclidean, stabilize.cc:136), 2 (Similarity,
stabilize.cc:174), 3 (Affine, stabilize.cc:212) and 4 (Homography,
stabilize.cc:250): each chain consists exactly of the estimates of the
consecutive pairs whose correspondence count reaches that bound. -/
theorem minimal_cardinality_guards {α β : Type}
    (count : α → α → Nat) (est : α → α → β) (images : List α) :
    ComputeRelativeEuclideanMatrices count est images
      = ((consecutivePairs images).filter
          (fun p => decide (2 ≤ count p.1 p.2))).map (fun p => est p.1 p.2) ∧
    ComputeRelativeSimilarityMatrices count est images
      = ((consecutivePairs images).filter
          (fun p => decide (2 ≤ count p.1 p.2))).map (fun p => est p.1 p.2) ∧
    ComputeRelativeAffineMatrices count est images
      = ((consecutivePairs images).filter
          (fun p => decide (3 ≤ count p.1 p.2))).map (fun p => est p.1 p.2) ∧
    ComputeRelativeHomographyMatrices count est images
      = ((consecutivePairs images).filter
          (fun p => decide (4 ≤ count p.1 p.2))).map (fun p => est p.1 p.2) :=
  ⟨filterMap_ite_eq_map_filter _ _ _, filterMap_ite_eq_map_filter _ _ _,
   filterMap_ite_eq_map_filter _ _ _, filterMap_ite_eq_map_filter _ _ _⟩

/-- Abnormal terminations of Stabilize: the assert at stabilize.cc:275
aborting, or an out-of-bounds vector access (image_files[0] on an empty
list, or Hs[i-1] beyond the chain). -/
inductive StabError
  | assertFailed
  | indexOutOfBounds
  deriving DecidableEq, Repr

/-- Reduction modulo 2^64, modelling size_t arithmetic. -/
def size64 (n : Nat) : Nat := n % 2 ^ 64

/-- The assert condition of stabilize.cc:275,
image_files.size() == Hs.size() - 1, with size_t wraparound on
Hs.size() - 1 when the chain is empty. -/
def stabAssertHolds (nFiles nHs : Nat) : Bool :=
  size64 nFiles == size64 (nHs + 2 ^ 64 - 1)

/-- Control-flow model of Stabilize (stabilize.cc:272-319): abort when the
assert fails; reading image_files[0] requires a nonempty file list; the
frame loop reads Hs[i-1] for every frame i >= 1, which stays in bounds
exactly when files.length - 1 <= Hs.length; on success every frame i is
warped by its cumulative transform. -/
def stabilizeRun (files : List String) (Hs : List Mat3Q) :
    Except StabError (List Mat3Q) :=
  if stabAssertHolds files.length Hs.length = false then
    Except.error StabError.assertFailed
  else if files.length = 0 then
    Except.error StabError.indexOutOfBounds
  else if files.length - 1 ≤ Hs.length then
    Except.ok ((List.range files.length).map (stabCumulative Hs))
  else
    Except.error StabError.indexOutOfBounds

/-- C4 counterexample: with three image files and a single-element
transform chain (a chain with an omitted link, shorter than
numImages - 1 = 2), Stabilize aborts at the assert instead of
proceeding. -/
theorem stabilize_short_chain_aborts :
    stabilizeRun ["a", "b", "c"] [1] = Except.error StabError.assertFailed := by
  rfl

/-- C4 amended: Stabilize does not tolerate a short chain. It aborts on
the assert image_files.size() == Hs.size() - 1 whenever the chain length
differs from numImages + 1 (in particular for every chain of length at
most numImages - 1, sizes below 2^64), and it processes all frames
exactly when that assert holds and at least one image is supplied. -/
theorem stabilize_requires_exact_chain (files : List String) (Hs : List Mat3Q) :
    (Hs.length = files.length + 1 → files ≠ [] →
      stabilizeRun files Hs
        = Except.ok ((List.range files.length).map (stabCumulative Hs))) ∧
    (files.length + 1 < 2 ^ 64 → Hs.length < 2 ^ 64 →
      Hs.length ≠ files.length + 1 →
      stabilizeRun files Hs = Except.error StabError.assertFailed) := by
  constructor
  · intro hlen hne
    have hassert : stabAssertHolds files.length Hs.length = true := by
      rw [stabAssertHolds, hlen]
      have : files.length + 1 + 2 ^ 64 - 1 = files.length + 2 ^ 64 := by omega
      rw [this]
      simp [size64, Nat.add_mod_right]
    have hnz : files.length ≠ 0 := fun h0 => hne (List.eq_nil_of_length_eq_zero h0)
    rw [stabilizeRun, hassert]
    simp only [Bool.true_eq_false, if_false]
    rw [if_neg hnz, if_pos (by omega)]
  · intro hf hh hne
    have hassert : stabAssertHolds files.length Hs.length = false := by
      rw [stabAssertHolds]
      simp only [beq_eq_false_iff_ne, ne_eq, size64]
      have h1 : files.length % 2 ^ 64 = files.length := Nat.mod_eq_of_lt (by omega)
      rcases Nat.eq_zero_or_pos Hs.length with h0 | hpos
      · rw [h0, h1]
        have : (0 : Nat) + 2 ^ 64 - 1 = 2 ^ 64 - 1 := by omega
        rw [this, Nat.mod_eq_of_lt (by omega)]
        omega
      · have : Hs.length + 2 ^ 64 - 1 = (Hs.length - 1) + 2 ^ 64 := by omega
        rw [this, Nat.add_mod_right, h1, Nat.mod_eq_of_lt (by omega)]
        omega
    rw [stabilizeRun, hassert]
    simp

/-- Witness for the amended C4: one image with a two-element chain
satisfies the assert and is processed; the counterexample theorem itself
witnesses the abort branch. -/
theorem stabilize_requires_exact_chain_witness :
    ([(1 : Mat3Q), 1].length = (["a"] : List String).length + 1 ∧
      (["a"] : List String) ≠ []) ∧
    stabilizeRun ["a"] [1, 1]
      = Except.ok ((List.range (["a"] : List String).length).map
          (stabCumulative [1, 1])) :=
  ⟨⟨by simp, by simp⟩,
    (stabilize_requires_exact_chain ["a"] [1, 1]).1 (by simp) (by simp)⟩

/-- Index of the last occurrence of the path separator in a character
list, as std::string::rfind("/") returns it; none models npos. -/
def rfindSlash : List Char → Option Nat
  | [] => none
  | c :: cs =>
      match rfindSlash cs with
      | some n => some (n + 1)
      | none => if c = '/' then some 0 else none

/-- The nf.rfind of stabilize.cc:97-98: append a separator to the folder
unless the last occurrence of the separator is already at the final
position. -/
def appendSlash (nf : List Char) : List Char :=
  if rfindSlash nf = some (nf.length - 1) then nf else nf ++ ['/']

/-- ReplaceFolder (stabilize.cc:82-108, non-WIN32 branch): an empty
new_folder returns s unchanged; otherwise either the prefix of s up to
and including its last separator is replaced by the slash-terminated
folder, or, with no separator in s, the folder is prepended to all
of s. -/
def ReplaceFolder (s new_folder : List Char) : List Char :=
  if new_folder = [] then s
  else
    match rfindSlash s with
    | some n => appendSlash new_folder ++ s.drop (n + 1)
    | none => appendSlash new_folder ++ s

/-- A found separator index is a valid index of the searched list. -/
theorem rfindSlash_lt_length :
    ∀ (xs : List Char) (n : Nat), rfindSlash xs = some n → n < xs.length := by
  intro xs
  induction xs with
  | nil => intro n hm; simp [rfindSlash] at hm
  | cons y ys ihy =>
      intro n hm
      rw [rfindSlash] at hm
      cases hf2 : rfindSlash ys with
      | some k =>
          rw [hf2] at hm
          simp only [Option.some.injEq] at hm
          have hk := ihy k hf2
          simp only [List.length_cons]
          omega
      | none =>
          rw [hf2] at hm
          by_cases hy : y = '/'
          · rw [if_pos hy] at hm
            simp only [Option.some.injEq] at hm
            simp only [List.length_cons]
            omega
          · simp [hy] at hm

/-- On lists ending with a given element, rfindSlash points at the final
position when that element is the separator, and otherwise searches the
remainder. -/
theorem rfindSlash_append_singleton (xs : List Char) (c : Char) :
    rfindSlash (xs ++ [c])
      = if c = '/' then some xs.length else rfindSlash xs := by
  induction xs with
  | nil =>
      by_cases hc : c = '/' <;> simp [rfindSlash, hc]
  | cons x xs ih =>
      rw [List.cons_append, rfindSlash, ih]
      by_cases hc : c = '/'
      · simp [hc, List.length_cons]
      · rw [if_neg hc, if_neg hc, rfindSlash]

/-- The suffix of s strictly after its last separator (all of s when
there is none) is the reversed longest separator-free suffix. -/
theorem drop_after_rfindSlash (s : List Char) :
    (match rfindSlash s with
      | some n => s.drop (n + 1)
      | none => s)
      = (s.reverse.takeWhile (fun c => !(c = '/' : Bool))).reverse := by
  induction s using List.reverseRecOn with
  | nil => rfl
  | append_singleton xs c ih =>
      rw [rfindSlash_append_singleton, List.reverse_append,
        List.reverse_singleton, List.singleton_append,
        List.takeWhile_cons]
      by_cases hc : c = '/'
      · rw [if_pos hc]
        have hp : (!(c = '/' : Bool)) = false := by simp [hc]
        rw [hp, if_neg (by simp)]
        simp only [List.reverse_nil]
        exact List.drop_eq_nil_of_le (by simp)
      · rw [if_neg hc]
        have hp : (!(c = '/' : Bool)) = true := by simp [hc]
        rw [hp, if_pos rfl, List.reverse_cons]
        cases hfind : rfindSlash xs with
        | none =>
            rw [hfind] at ih
            simp only at ih
            simp only [← ih]
        | some n =>
            rw [hfind] at ih
            simp only at ih
            have hn := rfindSlash_lt_length xs n hfind
            simp only [List.drop_append_of_le_length (by omega : n + 1 ≤ xs.length), ih]

/-- rfindSlash finds the final position exactly when the list is nonempty
and ends with the separator. -/
theorem rfindSlash_last_position (nf : List Char) (hne : nf ≠ []) :
    (rfindSlash nf = some (nf.length - 1)) ↔ nf.getLast? = some '/' := by
  induction nf using List.reverseRecOn with
  | nil => exact absurd rfl hne
  | append_singleton xs c _ =>
      rw [rfindSlash_append_singleton, List.getLast?_append_cons]
      constructor
      · intro h
        by_cases hc : c = '/'
        · simp [hc]
        · rw [if_neg hc] at h
          have hlen : (xs ++ [c]).length - 1 = xs.length := by simp
          rw [hlen] at h
          exact (Nat.lt_irrefl xs.length (rfindSlash_lt_length xs xs.length h)).elim
      · intro h
        simp only [List.getLast?_singleton, Option.some.injEq] at h
        simp [h]

/-- C10: ReplaceFolder with an empty folder is the identity, and with a
nonempty folder it returns the folder, a separator appended unless the
folder already ends with one, followed by the portion of s after its
last separator (all of s when s has no separator). -/
theorem replaceFolder_spec (s nf : List Char) :
    ReplaceFolder s [] = s ∧
    (nf ≠ [] →
      ReplaceFolder s nf
        = (nf ++ if nf.getLast? = some '/' then [] else ['/'])
          ++ (s.reverse.takeWhile (fun c => !(c = '/' : Bool))).reverse) := by
  refine ⟨rfl, ?_⟩
  intro hne
  rw [ReplaceFolder, if_neg hne]
  have hfold := rfindSlash_last_position nf hne
  have hnf : appendSlash nf
      = nf ++ (if nf.getLast? = some '/' then [] else ['/']) := by
    rw [appendSlash]
    by_cases hend : nf.getLast? = some '/'
    · rw [if_pos (hfold.mpr hend), if_pos hend, List.append_nil]
    · rw [if_neg (fun h => hend (hfold.mp h)), if_neg hend]
  have hdrop := drop_after_rfindSlash s
  cases hf : rfindSlash s with
  | some n =>
      rw [hf] at hdrop
      simp only at hdrop
      rw [hnf]
      exact congrArg
        (fun t => (nf ++ if nf.getLast? = some '/' then [] else ['/']) ++ t) hdrop
  | none =>
      rw [hf] at hdrop
      simp only at hdrop
      rw [hnf]
      exact congrArg
        (fun t => (nf ++ if nf.getLast? = some '/' then [] else ['/']) ++ t) hdrop

/-- Witness for C10 at s = "dir/img.png" and new_folder = "out", whose
result is "out/img.png". -/
theorem replaceFolder_spec_witness :
    "out".toList ≠ ([] : List Char) ∧
    ReplaceFolder "dir/img.png".toList "out".toList
      = ("out".toList ++
          if ("out".toList : List Char).getLast? = some '/' then [] else ['/'])
        ++ (("dir/img.png".toList : List Char).reverse.takeWhile
            (fun c => !(c = '/' : Bool))).reverse :=
  ⟨by decide,
    (replaceFolder_spec "dir/img.png".toList "out".toList).2 (by decide)⟩

/-- Lexicographic byte-wise comparison of filenames, as std::string
comparison orders them for std::sort in main (stabilize.cc:336). -/
def lexLe : List Char → List Char → Bool
  | [], _ => true
  | _ :: _, [] => false
  | a :: as, b :: bs => if a < b then true else if b < a then false else lexLe as bs

/-- The sort of the command-line image file list, main at
stabilize.cc:332-336. -/
def sortFiles (files : List (List Char)) : List (List Char) :=
  List.insertionSort (fun a b => lexLe a b = true) files

/-- The image sequence pipeline of main (stabilize.cc:332-364): sort the
file list, then run the chain composer on the ordered sequence. -/
def stabilizePipelineChain {β : Type} (minN : Nat)
    (count : List Char → List Char → Nat) (est : List Char → List Char → β)
    (files : List (List Char)) : List β :=
  computeRelativeMatrices minN count est (sortFiles files)

theorem lexLe_total : ∀ a b : List Char, lexLe a b = true ∨ lexLe b a = true := by
  intro a
  induction a with
  | nil => intro b; left; rfl
  | cons x xs ih =>
      intro b
      cases b with
      | nil => right; rfl
      | cons y ys =>
          rcases lt_trichotomy x y with h | h | h
          · left; simp [lexLe, h]
          · subst h
            rcases ih ys with h2 | h2
            · left; simp [lexLe, h2]
            · right; simp [lexLe, h2]
          · right; simp [lexLe, h]

theorem lexLe_trans : ∀ a b c : List Char,
    lexLe a b = true → lexLe b c = true → lexLe a c = true := by
  intro a
  induction a with
  | nil => intro b c _ _; rfl
  | cons x xs ih =>
      intro b c hab hbc
      cases b with
      | nil => simp [lexLe] at hab
      | cons y ys =>
          cases c with
          | nil => simp [lexLe] at hbc
          | cons z zs =>
              rw [lexLe] at hab hbc ⊢
              by_cases hxy : x < y
              · by_cases hyz : y < z
                · rw [if_pos (lt_trans hxy hyz)]
                · by_cases hzy : z < y
                  · simp [hyz, hzy] at hbc
                  · have : y = z := le_antisymm (not_lt.mp hzy) (not_lt.mp hyz)
                    subst this
                    rw [if_pos hxy]
              · by_cases hyx : y < x
                · simp [hxy, hyx] at hab
                · have hxyeq : x = y := le_antisymm (not_lt.mp hyx) (not_lt.mp hxy)
                  subst hxyeq
                  by_cases hyz : x < z
                  · rw [if_pos hyz]
                  · by_cases hzy : z < x
                    · simp [hyz, hzy] at hbc
                    · rw [if_neg hyz, if_neg hzy]
                      rw [if_neg (lt_irrefl x), if_neg (lt_irrefl x)] at hab
                      rw [if_neg hyz, if_neg hzy] at hbc
                      exact ih ys zs hab hbc

instance : IsTotal (List Char) (fun a b => lexLe a b = true) := ⟨lexLe_total⟩

instance : IsTrans (List Char) (fun a b => lexLe a b = true) := ⟨lexLe_trans⟩

/-- Index i of the consecutive-pair list is the pair of elements i and
i + 1 of the underlying list. -/
theorem consecutivePairs_get? {α : Type} (d : α) :
    ∀ (l : List α) (i : Nat), i + 1 < l.length →
      (consecutivePairs l).get? i = some (l.getD i d, l.getD (i + 1) d) := by
  intro l
  induction l with
  | nil => intro i hi; simp at hi
  | cons x xs ih =>
      intro i hi
      cases xs with
      | nil => simp at hi
      | cons y ys =>
          cases i with
          | zero => rfl
          | succ j =>
              have hj : j + 1 < (y :: ys).length := by
                simp only [List.length_cons] at hi ⊢
                omega
              have := ih j hj
              simpa [consecutivePairs] using this

/-- C8 counterexample: three files a, b, c already in lexicographic
order, where the pair (a, b) has no correspondences and (b, c) has five;
the chain composer with the Euclidean bound 2 emits a single transform,
and the 0th transform relates b and c, not the 0th and 1st filenames. -/
theorem chain_index_shift_counterexample :
    stabilizePipelineChain 2
        (fun a _ => if a = "a".toList then 0 else 5)
        (fun a b => (a, b))
        ["a".toList, "b".toList, "c".toList]
      = [("b".toList, "c".toList)] ∧
    (stabilizePipelineChain 2
        (fun a _ => if a = "a".toList then 0 else 5)
        (fun a b => (a, b))
        ["a".toList, "b".toList, "c".toList]).get? 0
      ≠ some ("a".toList, "b".toList) := by
  constructor
  · rfl
  · decide

/-- C8 amended: the chain composer walks the consecutive pairs of the
lexicographically sorted file list (a sorted permutation of the input);
when every consecutive pair reaches the minimal correspondence count, the
i-th pairwise transform is estimated from the files that are i-th and
(i+1)-th in lexicographic order. Pairs below the bound are skipped, so
with gaps later transforms shift forward. -/
theorem chain_pairs_follow_sorted_order {β : Type} (minN : Nat)
    (count : List Char → List Char → Nat) (est : List Char → List Char → β)
    (files : List (List Char)) (i : Nat)
    (hall : ∀ p ∈ consecutivePairs (sortFiles files), minN ≤ count p.1 p.2)
    (hi : i + 1 < (sortFiles files).length) :
    List.Sorted (fun a b => lexLe a b = true) (sortFiles files) ∧
    (sortFiles files).Perm files ∧
    (stabilizePipelineChain minN count est files).get? i
      = some (est ((sortFiles files).getD i [])
          ((sortFiles files).getD (i + 1) [])) := by
  refine ⟨List.sorted_insertionSort _ _, List.perm_insertionSort _ _, ?_⟩
  rw [stabilizePipelineChain, computeRelativeMatrices]
  have hmf := filterMap_ite_eq_map_filter
    (c := fun p : List Char × List Char => minN ≤ count p.1 p.2)
    (f := fun p : List Char × List Char => est p.1 p.2)
    (l := consecutivePairs (sortFiles files))
  rw [hmf, List.filter_eq_self.mpr (fun p hp => by simpa using hall p hp),
    List.get?_map, consecutivePairs_get? [] (sortFiles files) i hi]
  rfl

/-- Witness for the amended C8 at two unsorted files with a constant
correspondence count of two and the pair constructor as estimator. -/
theorem chain_pairs_follow_sorted_order_witness :
    (∀ p ∈ consecutivePairs (sortFiles ["b".toList, "a".toList]),
      2 ≤ (fun _ _ => 2) p.1 p.2) ∧
    (0 : Nat) + 1 < (sortFiles ["b".toList, "a".toList]).length ∧
    (List.Sorted (fun a b => lexLe a b = true)
        (sortFiles ["b".toList, "a".toList]) ∧
      (sortFiles ["b".toList, "a".toList]).Perm ["b".toList, "a".toList] ∧
      (stabilizePipelineChain 2 (fun _ _ => 2)
          (fun a b => (a, b)) ["b".toList, "a".toList]).get? 0
        = some ((fun a b => (a, b))
            ((sortFiles ["b".toList, "a".toList]).getD 0 [])
            ((sortFiles ["b".toList, "a".toList]).getD 1 []))) :=
  ⟨fun p _ => by norm_num, by decide,
    chain_pairs_follow_sorted_order 2 (fun _ _ => 2) (fun a b => (a, b))
      ["b".toList, "a".toList] 0 (fun p _ => by norm_num) (by decide)⟩

/-- OpenCV element depths relevant to the dispatch in
HomogeneousToEuclidean (projection.cpp:62-75). -/
inductive CvDepth
  | cv8u
  | cv32f
  | cv64f
  deriving DecidableEq, Repr

/-- An access through a raw T* pointer that leaves its matrix buffer:
undefined behavior in the source. -/
inductive MemError
  | outOfBounds
  deriving DecidableEq, Repr

/-- Size in bytes of one matrix element: 4 for the float instantiation,
8 for the double one. -/
def elemSize (depth : CvDepth) : Nat :=
  if depth = CvDepth.cv32f then 4 else 8

/-- The inner column walk of HomogeneousToEuclidean_
(projection.cpp:51-59) on flat row-major buffers. The loop bound
x_col_ptr_end = x_ptr + d * _x.step and the increments
X_col_ptr += X_rows.step, x_col_ptr += _x.step use cv::Mat step values,
which are measured in BYTES (n * sz for a contiguous n-column matrix),
as offsets in T-element units; so iteration j of the d iterations reads
element i + j * (n * sz) of the input buffer, divides it by the last-row
element d * n + i, and writes element i + j * (n * sz) of the output
buffer, erroring when an access leaves its buffer. -/
def innerColumnWalk (sz d n : Nat) (X : List ℚ) (i : Nat) :
    Nat → Nat → List ℚ → Except MemError (List ℚ)
  | 0, _, x => Except.ok x
  | Nat.succ rem, j, x =>
      if i + j * (n * sz) < X.length ∧ d * n + i < X.length
          ∧ i + j * (n * sz) < x.length then
        innerColumnWalk sz d n X i rem (j + 1)
          (x.set (i + j * (n * sz))
            (X.getD (i + j * (n * sz)) 0 / X.getD (d * n + i) 0))
      else Except.error MemError.outOfBounds

/-- The outer loop of HomogeneousToEuclidean_ (projection.cpp:48-59):
h_ptr, X_ptr and x_ptr advance one element per column, visiting the n
columns left to right; each runs the inner walk of d iterations. -/
def outerColumnLoop (sz d n : Nat) (X : List ℚ) :
    Nat → Nat → List ℚ → Except MemError (List ℚ)
  | 0, _, x => Except.ok x
  | Nat.succ rem, i, x =>
      match innerColumnWalk sz d n X i d 0 x with
      | Except.error e => Except.error e
      | Except.ok x2 => outerColumnLoop sz d n X rem (i + 1) x2

/-- The templated worker HomogeneousToEuclidean_ of projection.cpp:40-60
on a (d+1) x n row-major input buffer, writing a d x n output buffer
(caller-allocated, modelled zero-initialized); the homogeneous divisions
carry no guard against a zero last-row entry. -/
def HomogeneousToEuclideanWorker (sz d n : Nat) (X : List ℚ) :
    Except MemError (List ℚ) :=
  outerColumnLoop sz d n X n 0 (List.replicate (d * n) 0)

/-- The dispatching HomogeneousToEuclidean of projection.cpp:62-75: the
float instantiation (element size 4) runs exactly when the depth is
CV_32F, the double instantiation (element size 8) otherwise; the Bool
records whether the float path ran. -/
def HomogeneousToEuclidean (depth : CvDepth) (d n : Nat) (X : List ℚ) :
    Bool × Except MemError (List ℚ) :=
  if depth = CvDepth.cv32f
    then (true, HomogeneousToEuclideanWorker (elemSize depth) d n X)
    else (false, HomogeneousToEuclideanWorker (elemSize depth) d n X)

/-- C9: evaluation of the worker at the claim's failing input. On the
3-row single-column (4, 6, 2), in either depth, the byte-valued step
added to a T* pointer sends the second inner iteration out of the
matrix buffers, so no output matrix with entries X(j,i)/X(d,i) is
produced; the per-entry division the claim states is computed only in
the 2-row case (d = 1), here (4, 6 over 2, 2) giving (2, 3), and the
float path runs exactly on CV_32F as the claim says. -/
theorem homogeneousToEuclidean_pointer_walk :
    (HomogeneousToEuclidean CvDepth.cv64f 2 1 [4, 6, 2]).2
      = Except.error MemError.outOfBounds ∧
    (HomogeneousToEuclidean CvDepth.cv32f 2 1 [4, 6, 2]).2
      = Except.error MemError.outOfBounds ∧
    (HomogeneousToEuclidean CvDepth.cv64f 1 2 [4, 6, 2, 2]).2
      = Except.ok [2, 3] ∧
    (HomogeneousToEuclidean CvDepth.cv32f 1 2 [4, 6, 2, 2]).1 = true ∧
    (HomogeneousToEuclidean CvDepth.cv64f 1 2 [4, 6, 2, 2]).1 = false := by
  have hne : CvDepth.cv64f ≠ CvDepth.cv32f := fun h => CvDepth.noConfusion h
  refine ⟨?_, ?_, ?_, rfl, rfl⟩ <;>
    norm_num [HomogeneousToEuclidean, HomogeneousToEuclideanWorker,
      outerColumnLoop, innerColumnWalk, elemSize, List.set, hne]

/-- Mean of a list of reals, one axis of MeanAndVarianceAlongRows as used
by fundamental_test.cc:48-54; the empty list gets the junk value 0. -/
noncomputable def listMean (l : List ℝ) : ℝ := l.sum / l.length

/-- Per-axis variance, the mean squared deviation from the mean. -/
noncomputable def listVariance (l : List ℝ) : ℝ :=
  ((l.map (fun v => (v - listMean l) ^ 2)).sum) / l.length

/-- Modelled from the spec: PreconditionerFromPoints is declared in
libmv/multiview/fundamental.h but its implementation is not under src/.
Section 4.1 fixes translation by minus the centroid composed with
scaling chosen so that the conditioned variance is the target constant 2,
and both the spec guarantee (centroid 0 and per-axis variance 2) and the
test at fundamental_test.cc:36-55, whose two axes have unequal input
variances yet must each reach 2, force one factor per axis,
sqrt(2 / variance); the conflicting "uniform scale" phrase of section 4.1
cannot meet that guarantee. Result transform: diag(xf, yf, 1) composed
with the centroid translation. -/
noncomputable def PreconditionerFromPoints (ps : List (ℝ × ℝ)) :
    Matrix (Fin 3) (Fin 3) ℝ :=
  !![Real.sqrt (2 / listVariance (ps.map Prod.fst)), 0,
      -(Real.sqrt (2 / listVariance (ps.map Prod.fst))
        * listMean (ps.map Prod.fst));
    0, Real.sqrt (2 / listVariance (ps.map Prod.snd)),
      -(Real.sqrt (2 / listVariance (ps.map Prod.snd))
        * listMean (ps.map Prod.snd));
    0, 0, 1]

/-- Modelled from the spec: ApplyTransformationToPoints (declared in
libmv/multiview/fundamental.h, implementation not under src/) applies the
3x3 conditioning transform to every 2D point in homogeneous
coordinates. -/
noncomputable def ApplyTransformationToPoints (ps : List (ℝ × ℝ))
    (T : Matrix (Fin 3) (Fin 3) ℝ) : List (ℝ × ℝ) :=
  ps.map (fun p => (T.mulVec ![p.1, p.2, 1] 0, T.mulVec ![p.1, p.2, 1] 1))

theorem listVariance_nil : listVariance [] = 0 := by
  simp [listVariance]

theorem sum_map_affine (a b : ℝ) (l : List ℝ) :
    (l.map (fun v => a * v + b)).sum = a * l.sum + l.length * b := by
  induction l with
  | nil => simp
  | cons x xs ih =>
      simp only [List.map_cons, List.sum_cons, ih, List.length_cons]
      push_cast
      ring

theorem listMean_map_affine (a b : ℝ) (l : List ℝ) (h : l ≠ []) :
    listMean (l.map (fun v => a * v + b)) = a * listMean l + b := by
  have hn : (l.length : ℝ) ≠ 0 := by
    simpa using List.length_pos.mpr h |>.ne'
  rw [listMean, listMean, List.length_map, sum_map_affine]
  field_simp
  ring

theorem listVariance_map_affine (a b : ℝ) (l : List ℝ) (h : l ≠ []) :
    listVariance (l.map (fun v => a * v + b)) = a ^ 2 * listVariance l := by
  rw [listVariance, listVariance, List.length_map,
    listMean_map_affine a b l h, List.map_map]
  have hfun : ((fun v => (v - (a * listMean l + b)) ^ 2)
      ∘ (fun v => a * v + b)) = fun v => a ^ 2 * (v - listMean l) ^ 2 := by
    funext v
    simp only [Function.comp]
    ring
  rw [hfun, List.sum_map_mul_left, mul_div_assoc]

/-- C2 counterexample: a single point (so at least one point, but zero
per-axis variance) is mapped with scale sqrt(2/0) = 0, and the
conditioned per-axis variance is 0, not within 1e-8 of 2. -/
theorem preconditioner_single_point_counterexample :
    ¬ (|listVariance ((ApplyTransformationToPoints [((0 : ℝ), 0)]
          (PreconditionerFromPoints [(0, 0)])).map Prod.fst) - 2|
        ≤ 1 / 10 ^ 8) := by
  have hpts : (ApplyTransformationToPoints [((0 : ℝ), 0)]
      (PreconditionerFromPoints [(0, 0)])).map Prod.fst = [0] := by
    simp [ApplyTransformationToPoints, PreconditionerFromPoints,
      Matrix.mulVec, Matrix.dotProduct, Fin.sum_univ_three, listMean]
  rw [hpts]
  have : listVariance [(0 : ℝ)] = 0 := by
    simp [listVariance, listMean]
  rw [this]
  norm_num

/-- C2 amended: for every point set whose per-axis variances are both
positive (ruling out the degenerate sets on which the scale is
sqrt(2/0)), the conditioned points have per-axis mean within 1e-8 of 0
and per-axis variance within 1e-8 of 2 (both are in fact exact). -/
theorem preconditioner_normalizes (ps : List (ℝ × ℝ))
    (hx : 0 < listVariance (ps.map Prod.fst))
    (hy : 0 < listVariance (ps.map Prod.snd)) :
    |listMean ((ApplyTransformationToPoints ps
        (PreconditionerFromPoints ps)).map Prod.fst) - 0| ≤ 1 / 10 ^ 8 ∧
    |listMean ((ApplyTransformationToPoints ps
        (PreconditionerFromPoints ps)).map Prod.snd) - 0| ≤ 1 / 10 ^ 8 ∧
    |listVariance ((ApplyTransformationToPoints ps
        (PreconditionerFromPoints ps)).map Prod.fst) - 2| ≤ 1 / 10 ^ 8 ∧
    |listVariance ((ApplyTransformationToPoints ps
        (PreconditionerFromPoints ps)).map Prod.snd) - 2| ≤ 1 / 10 ^ 8 := by
  have hne : ps ≠ [] := by
    intro h
    rw [h] at hx
    simp only [List.map_nil, listVariance_nil] at hx
    exact lt_irrefl 0 hx
  have hnex : ps.map Prod.fst ≠ [] := by simpa using hne
  have hney : ps.map Prod.snd ≠ [] := by simpa using hne
  have hfst : (ApplyTransformationToPoints ps
      (PreconditionerFromPoints ps)).map Prod.fst
      = (ps.map Prod.fst).map
          (fun v => Real.sqrt (2 / listVariance (ps.map Prod.fst)) * v
            + -(Real.sqrt (2 / listVariance (ps.map Prod.fst))
              * listMean (ps.map Prod.fst))) := by
    rw [ApplyTransformationToPoints, List.map_map, List.map_map]
    congr 1
    funext p
    simp [PreconditionerFromPoints, Matrix.mulVec, Matrix.dotProduct,
      Fin.sum_univ_three]
  have hsnd : (ApplyTransformationToPoints ps
      (PreconditionerFromPoints ps)).map Prod.snd
      = (ps.map Prod.snd).map
          (fun v => Real.sqrt (2 / listVariance (ps.map Prod.snd)) * v
            + -(Real.sqrt (2 / listVariance (ps.map Prod.snd))
              * listMean (ps.map Prod.snd))) := by
    rw [ApplyTransformationToPoints, List.map_map, List.map_map]
    congr 1
    funext p
    simp [PreconditionerFromPoints, Matrix.mulVec, Matrix.dotProduct,
      Fin.sum_univ_three]
  have hsqx : Real.sqrt (2 / listVariance (ps.map Prod.fst)) ^ 2
      = 2 / listVariance (ps.map Prod.fst) :=
    Real.sq_sqrt (div_nonneg (by norm_num) (le_of_lt hx))
  have hsqy : Real.sqrt (2 / listVariance (ps.map Prod.snd)) ^ 2
      = 2 / listVariance (ps.map Prod.snd) :=
    Real.sq_sqrt (div_nonneg (by norm_num) (le_of_lt hy))
  refine ⟨?_, ?_, ?_, ?_⟩
  · rw [hfst, listMean_map_affine _ _ _ hnex]
    simp
  · rw [hsnd, listMean_map_affine _ _ _ hney]
    simp
  · rw [hfst, listVariance_map_affine _ _ _ hnex, hsqx,
      div_mul_cancel₀ 2 (ne_of_gt hx)]
    simp
  · rw [hsnd, listVariance_map_affine _ _ _ hney, hsqy,
      div_mul_cancel₀ 2 (ne_of_gt hy)]
    simp

/-- Witness for the amended C2 at the four test points of
fundamental_test.cc:38-40, whose axis variances 1/4 and 5/4 are
positive. -/
theorem preconditioner_normalizes_witness :
    0 < listVariance (([((0 : ℝ), 0), (0, 2), (1, 1), (1, 3)]).map Prod.fst) ∧
    0 < listVariance (([((0 : ℝ), 0), (0, 2), (1, 1), (1, 3)]).map Prod.snd) ∧
    |listVariance ((ApplyTransformationToPoints
        [((0 : ℝ), 0), (0, 2), (1, 1), (1, 3)]
        (PreconditionerFromPoints [(0, 0), (0, 2), (1, 1), (1, 3)])).map
          Prod.fst) - 2| ≤ 1 / 10 ^ 8 :=
  have hx : 0 < listVariance
      (([((0 : ℝ), 0), (0, 2), (1, 1), (1, 3)]).map Prod.fst) := by
    norm_num [listVariance, listMean]
  have hy : 0 < listVariance
      (([((0 : ℝ), 0), (0, 2), (1, 1), (1, 3)]).map Prod.snd) := by
    norm_num [listVariance, listMean]
  ⟨hx, hy,
    (preconditioner_normalizes [(0, 0), (0, 2), (1, 1), (1, 3)] hx hy).2.2.1⟩

/-- Homogeneous coordinates (x, y, 1) of a 2D point, as built at
fundamental_test.cc:74-76. -/
def homog (p : ℚ × ℚ) : Fin 3 → ℚ := ![p.1, p.2, 1]

/-- The first point set of the 8-point tests, fundamental_test.cc:58-61:
column i of the 2xN matrix is the i-th listed point. -/
def testX1 : List (ℚ × ℚ) :=
  [(0, 0), (0, 1), (0, 2), (1, 0), (1, 1), (1, 2), (2, 0), (2, 1)]

/-- The second point set, fundamental_test.cc:63-67: x1 with the second
(row) coordinate of every point incremented by 1. -/
def testX2 : List (ℚ × ℚ) := testX1.map (fun p => (p.1, p.2 + 1))

/-- The homogeneous correspondence pairs of the test. -/
def testPairs : List ((Fin 3 → ℚ) × (Fin 3 → ℚ)) :=
  (testX1.zip testX2).map (fun p => (homog p.1, homog p.2))

/-- The epipolar residual y^T F x of one correspondence,
fundamental_test.cc:77-78. -/
def resid (F : Mat3Q) (xh yh : Fin 3 → ℚ) : ℚ :=
  Matrix.dotProduct yh (F.mulVec xh)

/-- Sum of squared epipolar residuals over a correspondence list: the
squared norm of the stacked linear system applied to F. -/
def sumSqResid (F : Mat3Q) (ps : List ((Fin 3 → ℚ) × (Fin 3 → ℚ))) : ℚ :=
  (ps.map (fun p => resid F p.1 p.2 ^ 2)).sum

/-- Squared Frobenius norm of a 3x3 matrix. -/
def frobSq (F : Mat3Q) : ℚ :=
  ∑ j, ∑ k, F j k ^ 2

/-- Modelled from the spec: FundamentalFromCorrespondencesLinear is
declared in libmv/multiview/fundamental.h with no implementation under
src/. Section 4.2 defines the linear solve as returning the minimizer of
the stacked epipolar system, the smallest-singular-vector minimization of
the norm of A h subject to unit norm of h; this predicate states that
characterization scale-invariantly over the rationals, by
cross-multiplied Rayleigh quotients: F is nonzero and no nonzero G
achieves a smaller ratio of squared residual norm to squared Frobenius
norm. -/
def IsMinimalEpipolarSolution (ps : List ((Fin 3 → ℚ) × (Fin 3 → ℚ)))
    (F : Mat3Q) : Prop :=
  F ≠ 0 ∧ ∀ G : Mat3Q, G ≠ 0 →
    sumSqResid F ps * frobSq G ≤ sumSqResid G ps * frobSq F

/-- Modelled from the spec: the normalization step of the 8-point variant
(FundamentalFromCorrespondences8Point, section 4.2 steps 1 and 4)
transforms both homogeneous point sets by conditioning matrices before
the linear solve. -/
def normalizedPairs (T1 T2 : Mat3Q)
    (ps : List ((Fin 3 → ℚ) × (Fin 3 → ℚ))) :
    List ((Fin 3 → ℚ) × (Fin 3 → ℚ)) :=
  ps.map (fun q => (T1.mulVec q.1, T2.mulVec q.2))

/-- The skew-symmetric matrix of the epipole (0, 1, 0): an exact
fundamental matrix for the pure translation by one row relating the two
test point sets. -/
def F0 : Mat3Q := !![0, 0, 1; 0, 0, 0; -1, 0, 0]

theorem sumSqResid_nonneg (F : Mat3Q)
    (ps : List ((Fin 3 → ℚ) × (Fin 3 → ℚ))) : 0 ≤ sumSqResid F ps :=
  List.sum_nonneg (by
    intro x hx
    obtain ⟨p, _, hp⟩ := List.mem_map.mp hx
    exact hp ▸ sq_nonneg _)

theorem frobSq_nonneg (G : Mat3Q) : 0 ≤ frobSq G :=
  Finset.sum_nonneg fun j _ => Finset.sum_nonneg fun k _ => sq_nonneg _

theorem frobSq_eq_zero_iff (G : Mat3Q) : frobSq G = 0 ↔ G = 0 := by
  constructor
  · intro h
    ext j k
    have hrow := (Finset.sum_eq_zero_iff_of_nonneg
      (fun j _ => Finset.sum_nonneg fun k _ => sq_nonneg (G j k))).mp h
    have hcell := (Finset.sum_eq_zero_iff_of_nonneg
      (fun k _ => sq_nonneg (G j k))).mp (hrow j (Finset.mem_univ j))
    have := hcell k (Finset.mem_univ k)
    simpa using pow_eq_zero_iff (n := 2) (by norm_num) |>.mp this
  · intro h
    subst h
    simp [frobSq]

/-- If some nonzero matrix has zero residual on every correspondence,
then every minimal solution has zero residual on every correspondence. -/
theorem minimal_solution_exact (ps : List ((Fin 3 → ℚ) × (Fin 3 → ℚ)))
    (G0 : Mat3Q) (hG0 : G0 ≠ 0) (hz : sumSqResid G0 ps = 0)
    (F : Mat3Q) (hF : IsMinimalEpipolarSolution ps F) :
    ∀ p ∈ ps, resid F p.1 p.2 = 0 := by
  obtain ⟨_, hmin⟩ := hF
  have h1 := hmin G0 hG0
  rw [hz, zero_mul] at h1
  have hfr : 0 < frobSq G0 :=
    lt_of_le_of_ne (frobSq_nonneg G0)
      (fun h => hG0 ((frobSq_eq_zero_iff G0).mp h.symm))
  have h2 : sumSqResid F ps ≤ 0 := by
    by_contra hpos
    exact absurd h1 (not_le.mpr (mul_pos (lt_of_not_le hpos) hfr))
  have h3 : sumSqResid F ps = 0 :=
    le_antisymm h2 (sumSqResid_nonneg F ps)
  intro p hp
  have hterm : resid F p.1 p.2 ^ 2 ≤ sumSqResid F ps := by
    apply List.single_le_sum
    · intro x hx
      obtain ⟨q, _, hq⟩ := List.mem_map.mp hx
      exact hq ▸ sq_nonneg _
    · exact List.mem_map_of_mem _ hp
  have hzero : resid F p.1 p.2 ^ 2 = 0 :=
    le_antisymm (h3 ▸ hterm) (sq_nonneg _)
  exact pow_eq_zero_iff (n := 2) (by norm_num) |>.mp hzero

/-- A residual against transformed points is the residual of the
back-transformed matrix against the original points. -/
theorem resid_normalized (T1 T2 G : Mat3Q) (xh yh : Fin 3 → ℚ) :
    resid G (T1.mulVec xh) (T2.mulVec yh)
      = resid (T2.transpose * G * T1) xh yh := by
  rw [resid, resid, Matrix.mulVec_mulVec]
  have hy : T2.mulVec yh = Matrix.vecMul yh T2.transpose := by
    rw [← Matrix.mulVec_transpose, Matrix.transpose_transpose]
  rw [hy, Matrix.dotProduct_mulVec, Matrix.vecMul_vecMul,
    ← Matrix.dotProduct_mulVec, Matrix.mul_assoc]

theorem sumSqResid_normalized (T1 T2 G : Mat3Q)
    (ps : List ((Fin 3 → ℚ) × (Fin 3 → ℚ))) :
    sumSqResid G (normalizedPairs T1 T2 ps)
      = sumSqResid (T2.transpose * G * T1) ps := by
  rw [sumSqResid, sumSqResid, normalizedPairs, List.map_map]
  congr 1
  apply List.map_congr_left
  intro q _
  simp only [Function.comp]
  rw [resid_normalized]

theorem sumSqResid_F0_testPairs : sumSqResid F0 testPairs = 0 := by
  norm_num [sumSqResid, resid, testPairs, testX1, testX2, homog, F0,
    Matrix.mulVec, Matrix.dotProduct, Fin.sum_univ_three,
    Matrix.vecHead, Matrix.vecTail]

theorem F0_ne_zero : F0 ≠ 0 := by
  decide

/-- Undoing both conditioning transforms around the conditioned exact
solution recovers the exact solution. -/
theorem unnormalize_F0 (T1 T2 : Mat3Q) (h1 : IsUnit T1.det)
    (h2 : IsUnit T2.det) :
    T2.transpose * ((T2⁻¹).transpose * F0 * T1⁻¹) * T1 = F0 := by
  have e2 : T2.transpose * (T2⁻¹).transpose = 1 := by
    rw [← Matrix.transpose_mul, Matrix.nonsing_inv_mul T2 h2,
      Matrix.transpose_one]
  have e1 : T1⁻¹ * T1 = 1 := Matrix.nonsing_inv_mul T1 h1
  calc T2.transpose * ((T2⁻¹).transpose * F0 * T1⁻¹) * T1
      = (T2.transpose * (T2⁻¹).transpose) * F0 * (T1⁻¹ * T1) := by
        noncomm_ring
    _ = F0 := by rw [e1, e2, one_mul, mul_one]

/-- C1: on the 8-correspondence test input (two offset point rows), every
matrix meeting the minimal-residual characterization of the plain linear
solve has epipolar residual of magnitude at most 1e-8 on every
correspondence, and so does the unnormalized result of the 8-point
variant for arbitrary invertible conditioning transforms. -/
theorem fundamental_residuals_within_tolerance :
    (∀ F : Mat3Q, IsMinimalEpipolarSolution testPairs F →
      ∀ p ∈ testPairs, |resid F p.1 p.2| ≤ 1 / 10 ^ 8) ∧
    (∀ T1 T2 : Mat3Q, IsUnit T1.det → IsUnit T2.det →
      ∀ F' : Mat3Q,
        IsMinimalEpipolarSolution (normalizedPairs T1 T2 testPairs) F' →
        ∀ p ∈ testPairs,
          |resid (T2.transpose * F' * T1) p.1 p.2| ≤ 1 / 10 ^ 8) := by
  constructor
  · intro F hF p hp
    rw [minimal_solution_exact testPairs F0 F0_ne_zero
      sumSqResid_F0_testPairs F hF p hp]
    norm_num
  · intro T1 T2 h1 h2 F' hF' p hp
    have hG0ne : (T2⁻¹).transpose * F0 * T1⁻¹ ≠ 0 := by
      intro h
      apply F0_ne_zero
      rw [← unnormalize_F0 T1 T2 h1 h2, h, Matrix.mul_zero, Matrix.zero_mul]
    have hG0z : sumSqResid ((T2⁻¹).transpose * F0 * T1⁻¹)
        (normalizedPairs T1 T2 testPairs) = 0 := by
      rw [sumSqResid_normalized, unnormalize_F0 T1 T2 h1 h2,
        sumSqResid_F0_testPairs]
    have hmem : (T1.mulVec p.1, T2.mulVec p.2)
        ∈ normalizedPairs T1 T2 testPairs :=
      List.mem_map_of_mem _ hp
    have hres := minimal_solution_exact (normalizedPairs T1 T2 testPairs)
      ((T2⁻¹).transpose * F0 * T1⁻¹) hG0ne hG0z F' hF'
      (T1.mulVec p.1, T2.mulVec p.2) hmem
    have := resid_normalized T1 T2 F' p.1 p.2
    rw [this] at hres
    rw [hres]
    norm_num

/-- Witness for C1: F0 itself meets the minimal-residual characterization
on the test pairs (its residual is identically zero), and with identity
conditioning transforms the 8-point branch applies to F0 as well; the
bound is checked on the first correspondence. -/
theorem fundamental_residuals_within_tolerance_witness :
    IsMinimalEpipolarSolution testPairs F0 ∧
    IsUnit (Matrix.det (1 : Mat3Q)) ∧
    |resid F0 (homog (0, 0)) (homog (0, 1))| ≤ 1 / 10 ^ 8 :=
  have hsol : IsMinimalEpipolarSolution testPairs F0 :=
    ⟨F0_ne_zero, fun G hG => by
      rw [sumSqResid_F0_testPairs, zero_mul]
      exact mul_nonneg (sumSqResid_nonneg G testPairs) (frobSq_nonneg F0)⟩
  ⟨hsol, by simp,
    fundamental_residuals_within_tolerance.1 F0 hsol
      (homog (0, 0), homog (0, 1))
      (by norm_num [testPairs, testX1, testX2])⟩

end Libmv
